import Mathlib

/-!
# Verification of the KRK endgame tablebase generator

Shallow embedding of `src/tablebase_generator_fixed.py` (class
`TablebaseGenerator`) and of `src/chess_solver_optimized.py`
(class `OptimizedTablebaseGenerator`), together with the fragment of the
`python-chess` library semantics that those files rely on (move generation,
check / checkmate / stalemate detection and `Board.push` for positions with
at most a white king, a white rook and a black king on the board).

Modelling decisions, documented once here:

* A python-chess `Board.fen()` string for the boards this program builds is
  fully determined by (and determines) the piece placement, the side to
  move, the halfmove clock and the fullmove number: castling and en-passant
  fields are always "- -".  The FEN string key used by the Python dict is
  therefore modelled by the record `Fen` below; string equality on the
  Python side is record equality here.

* `python-chess` increments the halfmove clock on every non-capture move
  and the fullmove number after every black move inside `Board.push`
  (captures reset the halfmove clock to 0); `chess.Board(fen=None)` starts
  with halfmove clock 0 and fullmove number 1.  `push` below mirrors this.

* `board.is_attacked_by(chess.BLACK, sq)` on these boards means "the black
  king attacks `sq`" (the black side has no other piece); this is
  `attackedByBlackKing` below.

* Move lists are generated in a fixed ascending square order.  python-chess
  generates moves in its own (descending bitboard scan) order; every claim
  checked below is invariant under the order of the generated move list.
  `legalMoves` reproduces python-chess legality for the side to move,
  including the two quirks the program exercises: a rook may "capture" the
  enemy king when the enumerated position has White to move with the black
  king already attacked, and a king stepping onto a defended square is
  rejected with the moving king removed from the occupancy.

* The Python dict is modelled as an association list with
  overwrite-on-insert (`putEntry`); `pickle.dump` / `pickle.load` are
  modelled as a record serialiser to a flat number stream and its parser.

* The "optimized" generator keeps its positions in a Python `set`, whose
  iteration order is unspecified; the model iterates the same elements in
  enumeration order.  All facts proved about it are independent of that
  order (its heuristic pass inserts nothing for any order).
-/

/-- `abs(a - b)` for natural numbers, as used with Python's `abs` on
rank/file differences. -/
def absDiff (a b : Nat) : Nat := max a b - min a b

/-- King adjacency: the two squares are distinct and within Chebyshev
distance 1 (python-chess `BB_KING_ATTACKS`). -/
def kingAdjacent (a b : Nat) : Bool :=
  decide (a ≠ b) && decide (absDiff (a / 8) (b / 8) ≤ 1) &&
    decide (absDiff (a % 8) (b % 8) ≤ 1)

/-- `board.is_attacked_by(chess.BLACK, wk)`: the only black piece is the
black king, so this is king adjacency of `bk` to `wk`. -/
def attackedByBlackKing (bk wk : Nat) : Bool := kingAdjacent bk wk

/-- The squares strictly between two squares of the same rank or file
(empty if the squares are not on a common line). -/
def betweenSq (r t : Nat) : List Nat :=
  if r / 8 = t / 8 then
    (List.range 64).filter (fun s =>
      decide (s / 8 = r / 8) && decide (min (r % 8) (t % 8) < s % 8) &&
        decide (s % 8 < max (r % 8) (t % 8)))
  else if r % 8 = t % 8 then
    (List.range 64).filter (fun s =>
      decide (s % 8 = r % 8) && decide (min (r / 8) (t / 8) < s / 8) &&
        decide (s / 8 < max (r / 8) (t / 8)))
  else []

/-- A rook on `r` attacks square `t` given the listed blocking squares
(sliding attack: common rank or file, nothing in between). -/
def rookAttacksFrom (blockers : List Nat) (r t : Nat) : Bool :=
  decide (r ≠ t) && (decide (r / 8 = t / 8) || decide (r % 8 = t % 8)) &&
    (betweenSq r t).all (fun s => !(blockers.contains s))

/-- A position key: piece placement (the rook and the black king may have
been captured), side to move (`true` = White, as `chess.WHITE == True`),
halfmove clock and fullmove number — exactly the information of the FEN
strings this program produces. -/
structure Fen where
  wk : Nat
  wr : Option Nat
  bk : Option Nat
  turn : Bool
  halfmove : Nat
  fullmove : Nat
deriving DecidableEq

/-- The FEN built by `_generate_all_positions`: three pieces, clocks `0 1`. -/
def mkFen (wk wr bk : Nat) (stm : Bool) : Fen :=
  { wk := wk, wr := some wr, bk := some bk, turn := stm,
    halfmove := 0, fullmove := 1 }

/-- Resetting the clocks of a key to their canonical enumeration values
(halfmove 0, fullmove 1): the canonical key of the position reached. -/
def canonical (f : Fen) : Fen :=
  { f with halfmove := 0, fullmove := 1 }

/-- A move, as python-chess `Move(from_square, to_square)` (UCI strings in
the program are in bijection with these pairs, no promotions exist). -/
abbrev Mv := Nat × Nat

/-- `board.is_check()`: the side to move is attacked.  White to move: only
the black king could attack the white king.  Black to move: the white king
or the white rook (with the white king as the only possible blocker)
attacks the black king. -/
def isCheck (f : Fen) : Bool :=
  if f.turn then
    match f.bk with
    | some bk => kingAdjacent bk f.wk
    | none => false
  else
    match f.bk with
    | none => false
    | some bk =>
      kingAdjacent f.wk bk ||
        (match f.wr with
         | none => false
         | some r => rookAttacksFrom [f.wk] r bk)

/-- Legality of a black king move to `t`: after removing the black king
from its square (python-chess tests attacks with `occupied ^ king`), `t`
must not be attacked by the white king, nor by the white rook — unless the
rook itself is captured by the move (`t = r` makes `rookAttacksFrom` false). -/
def blackKingTargetSafe (f : Fen) (t : Nat) : Bool :=
  !(kingAdjacent f.wk t) &&
    (match f.wr with
     | none => true
     | some r => !(rookAttacksFrom [f.wk] r t))

/-- Black king moves (`stm = BLACK`): the 8 neighbours, kept when safe. -/
def blackMoves (f : Fen) : List Mv :=
  match f.bk with
  | none => []
  | some bk =>
    (((List.range 64).filter (fun t => kingAdjacent bk t)).filter
        (fun t => blackKingTargetSafe f t)).map (fun t => (bk, t))

/-- White king moves: neighbours not occupied by the own rook, and not
adjacent to the black king after the move (the only black attacker). -/
def whiteKingMoves (f : Fen) : List Mv :=
  (((List.range 64).filter
      (fun t => kingAdjacent f.wk t && !(decide (f.wr = some t)))).filter
    (fun t =>
      match f.bk with
      | some bk => !(kingAdjacent bk t)
      | none => true)).map (fun t => (f.wk, t))

/-- One sliding ray: successive squares from rank/file `(r, f)` in
direction `(dr, df)` while on the board (at most 7 steps). -/
def rayAux : Nat → Int → Int → Int → Int → List Nat
  | 0, _, _, _, _ => []
  | n + 1, r, f, dr, df =>
    let r2 := r + dr
    let f2 := f + df
    if 0 ≤ r2 ∧ r2 < 8 ∧ 0 ≤ f2 ∧ f2 < 8 then
      (r2 * 8 + f2).toNat :: rayAux n r2 f2 dr df
    else []

/-- The ray of squares from `s` in direction `(dr, df)`. -/
def rookRay (s : Nat) (dr df : Int) : List Nat :=
  rayAux 7 ((s : Int) / 8) ((s : Int) % 8) dr df

/-- Slide along a ray: stop in front of the own king, stop on (and
include) the black king, pass through empty squares. -/
def slideTargets (wk : Nat) (bk : Option Nat) : List Nat → List Nat
  | [] => []
  | c :: rest =>
    if c = wk then []
    else if bk = some c then [c]
    else c :: slideTargets wk bk rest

/-- White rook moves along the four cardinal rays.  No black piece can pin
the rook, so every generated rook move is legal (python-chess `_is_safe`). -/
def rookMoves (f : Fen) : List Mv :=
  match f.wr with
  | none => []
  | some r =>
    (([((1 : Int), (0 : Int)), (-1, 0), (0, 1), (0, -1)]).flatMap
        (fun d => slideTargets f.wk f.bk (rookRay r d.1 d.2))).map
      (fun t => (r, t))

/-- `board.legal_moves` for the boards this program builds.  White is
never in check in any position the program evaluates moves on, so the
non-evasion generator applies; for Black the evasion generator coincides
with the plain safe-king-move filter because Black has only the king. -/
def legalMoves (f : Fen) : List Mv :=
  if f.turn then whiteKingMoves f ++ rookMoves f
  else blackMoves f

/-- `board.is_checkmate()`. -/
def isCheckmate (f : Fen) : Bool := isCheck f && decide (legalMoves f = [])

/-- `board.is_stalemate()`. -/
def isStalemate (f : Fen) : Bool := !(isCheck f) && decide (legalMoves f = [])

/-- `board.push(move)` followed by reading the new position: moves the
piece standing on the from-square, removes a captured piece, flips the
turn, resets the halfmove clock on captures and increments it otherwise,
and increments the fullmove number after a black move. -/
def push (f : Fen) (m : Mv) : Fen :=
  if f.turn then
    let isCap := f.bk = some m.2
    { wk := if m.1 = f.wk then m.2 else f.wk
      wr := if m.1 = f.wk then f.wr
            else if f.wr = some m.1 then some m.2 else f.wr
      bk := if isCap then none else f.bk
      turn := false
      halfmove := if isCap then 0 else f.halfmove + 1
      fullmove := f.fullmove }
  else
    let isCap := f.wr = some m.2
    { wk := f.wk
      wr := if isCap then none else f.wr
      bk := if f.bk = some m.1 then some m.2 else f.bk
      turn := true
      halfmove := if isCap then 0 else f.halfmove + 1
      fullmove := f.fullmove + 1 }

/-- A tablebase value: `'DRAW'` or an integer DTM. -/
inductive Val where
  | draw : Val
  | mate : Nat → Val
deriving DecidableEq

/-- A tablebase entry `(dtm, best_move)`. -/
abbrev Entry := Val × Option Mv

/-- The tablebase: a Python dict `FEN -> entry`, as an association list. -/
abbrev Table := List (Fen × Entry)

/-- Dict lookup. -/
def findEntry : Table → Fen → Option Entry
  | [], _ => none
  | (k, v) :: t, key => if k = key then some v else findEntry t key

/-- Dict assignment `d[k] = v` (replaces the binding if the key exists). -/
def putEntry : Table → Fen → Entry → Table
  | [], k, v => [(k, v)]
  | (k2, v2) :: t, k, v =>
    if k2 = k then (k, v) :: t else (k2, v2) :: putEntry t k v

/-- `TablebaseGenerator._generate_all_positions` (and, identically, the
`_generate_all_positions` of the optimized variant): iterate the three
squares and the side to move, skip overlaps, adjacent kings, and
White-to-move positions whose king is attacked by Black. -/
def generateAllPositions : List Fen :=
  (List.range 64).flatMap fun wk =>
    (List.range 64).flatMap fun wr =>
      (List.range 64).flatMap fun bk =>
        if wk = wr ∨ wk = bk ∨ wr = bk then []
        else if absDiff (wk / 8) (bk / 8) ≤ 1 ∧ absDiff (wk % 8) (bk % 8) ≤ 1 then []
        else
          ([true, false]).filterMap fun stm =>
            if stm = true ∧ attackedByBlackKing bk wk = true then none
            else some (mkFen wk wr bk stm)

/-- Step 2 of `generate_krk_tablebase`: label every checkmate `(0, None)`. -/
def markCheckmates (t : Table) (ps : List Fen) : Table :=
  ps.foldl (fun t f => if isCheckmate f then putEntry t f (Val.mate 0, none) else t) t

/-- Step 3 of `generate_krk_tablebase`: label every stalemate `('DRAW', None)`. -/
def markStalemates (t : Table) (ps : List Fen) : Table :=
  ps.foldl (fun t f => if isStalemate f then putEntry t f (Val.draw, none) else t) t

/-- The White-to-move scan of `_backward_induction_fixed`: running minimum
of the successor DTMs found in the table (`'DRAW'` values skipped), with
the move attaining it. -/
def whiteBestAux (t : Table) (f : Fen) :
    List Mv → Option Nat × Option Mv → Option Nat × Option Mv
  | [], acc => acc
  | m :: ms, acc =>
    let acc2 :=
      match findEntry t (push f m) with
      | some (Val.mate d2, _) =>
        match acc.1 with
        | none => (some d2, some m)
        | some b => if d2 < b then (some d2, some m) else acc
      | _ => acc
    whiteBestAux t f ms acc2

/-- The Black-to-move scan: `None` as soon as a successor is missing from
the table or is `'DRAW'` (the early `break`), otherwise the running
maximum of the successor DTMs. -/
def blackAllLose (t : Table) (f : Fen) : List Mv → Nat → Option Nat
  | [], worst => some worst
  | m :: ms, worst =>
    match findEntry t (push f m) with
    | none => none
    | some (Val.draw, _) => none
    | some (Val.mate d2, _) =>
      blackAllLose t f ms (if worst < d2 then d2 else worst)

/-- The second Black scan: the first move whose successor DTM equals the
maximum (the recorded longest resistance). -/
def blackDefense (t : Table) (f : Fen) (worst : Nat) : List Mv → Option Mv
  | [] => none
  | m :: ms =>
    match findEntry t (push f m) with
    | some (Val.mate d2, _) =>
      if d2 = worst then some m else blackDefense t f worst ms
    | _ => blackDefense t f worst ms

/-- The body of the `for fen in all_positions` loop of
`_backward_induction_fixed` at `current_dtm = d`, threading the table and
the `positions_found_last_iteration` flag. -/
def stepFixed (d : Nat) (acc : Table × Bool) (f : Fen) : Table × Bool :=
  if (findEntry acc.1 f).isSome then acc
  else if f.turn then
    match whiteBestAux acc.1 f (legalMoves f) (none, none) with
    | (some b, some m) =>
      if b = d - 1 then (putEntry acc.1 f (Val.mate d, some m), true) else acc
    | _ => acc
  else
    if legalMoves f = [] then acc
    else
      match blackAllLose acc.1 f (legalMoves f) 0 with
      | none => acc
      | some worst =>
        if worst = d - 1 then
          (putEntry acc.1 f
            (Val.mate d, blackDefense acc.1 f worst (legalMoves f)), true)
        else acc

/-- One full pass of the fixed backward induction at `current_dtm = d`. -/
def passFixed (ps : List Fen) (d : Nat) (t : Table) : Table × Bool :=
  ps.foldl (stepFixed d) (t, false)

/-- The `while positions_found_last_iteration and current_dtm < 50` loop:
`fuel = 50 - current_dtm` enforces the cap.  Returns the table and the
number of executed passes. -/
def loopFixed (ps : List Fen) : Nat → Nat → Table → Table × Nat
  | 0, _, t => (t, 0)
  | fuel + 1, dtm, t =>
    let r := passFixed ps (dtm + 1) t
    if r.2 then
      let r2 := loopFixed ps fuel (dtm + 1) r.1
      (r2.1, r2.2 + 1)
    else (r.1, 1)

/-- The trailing loop of `_backward_induction_fixed` (and of the optimized
`_simple_backward_induction`): every still-unlabeled position becomes
`('DRAW', None)`. -/
def markDraws (t : Table) (ps : List Fen) : Table :=
  ps.foldl (fun t f => if (findEntry t f).isSome then t else putEntry t f (Val.draw, none)) t

/-- The table after step 2 of `generate_krk_tablebase`. -/
def fixedT1 : Table := markCheckmates [] generateAllPositions

/-- The table after step 3 of `generate_krk_tablebase`. -/
def fixedT2 : Table := markStalemates fixedT1 generateAllPositions

/-- The backward-induction loop of step 4, with its pass count. -/
def fixedLoopResult : Table × Nat := loopFixed generateAllPositions 50 0 fixedT2

/-- `TablebaseGenerator.generate_krk_tablebase()`: the final store. -/
def generateKrkTablebase : Table := markDraws fixedLoopResult.1 generateAllPositions

/-- `query_position`: the reported string, paired with the (unmodified)
table to record that a query never changes the store. -/
def queryPosition (t : Table) (k : Fen) : String × Table :=
  match findEntry t k with
  | some (Val.draw, _) => ("Position is a draw", t)
  | some (Val.mate d, m) =>
    ("Mate in " ++ toString d ++ " moves. Best move: " ++
      (match m with
       | some mv => toString mv.1 ++ "-" ++ toString mv.2
       | none => "None"), t)
  | none => ("Position not found in tablebase", t)

/-- Encoding of one dict item for the pickle model: ten numbers. -/
def encodeRecord (kv : Fen × Entry) : List Nat :=
  [kv.1.wk,
   (match kv.1.wr with | none => 0 | some x => x + 1),
   (match kv.1.bk with | none => 0 | some x => x + 1),
   (if kv.1.turn then 1 else 0),
   kv.1.halfmove,
   kv.1.fullmove,
   (match kv.2.1 with | Val.draw => 0 | Val.mate d => d + 1),
   (match kv.2.2 with | none => 0 | some _ => 1),
   (match kv.2.2 with | none => 0 | some mv => mv.1),
   (match kv.2.2 with | none => 0 | some mv => mv.2)]

/-- `pickle.dump` modelled as serialising the dict items in order. -/
def pickleDump (t : Table) : List Nat := t.flatMap encodeRecord

/-- `pickle.load` modelled as parsing the record stream back into a dict. -/
def pickleLoad : List Nat → Table
  | a :: b :: c :: d :: e :: f :: g :: h :: i :: j :: rest =>
    ({ wk := a,
       wr := if b = 0 then none else some (b - 1),
       bk := if c = 0 then none else some (c - 1),
       turn := d ≠ 0,
       halfmove := e,
       fullmove := f },
     ((if g = 0 then Val.draw else Val.mate (g - 1)),
      (if h = 0 then none else some (i, j)))) :: pickleLoad rest
  | _ => []

/-- Step 2/3 of the optimized `generate_tablebase_simple`: checkmates and
stalemates in a single scan. -/
def markTerminalsOpt (t : Table) (ps : List Fen) : Table :=
  ps.foldl (fun t f =>
    if isCheckmate f then putEntry t f (Val.mate 0, none)
    else if isStalemate f then putEntry t f (Val.draw, none)
    else t) t

/-- `OptimizedTablebaseGenerator._is_near_mate`: some successor FEN is in
the table. -/
def isNearMate (t : Table) (f : Fen) : Bool :=
  (legalMoves f).any (fun m => (findEntry t (push f m)).isSome)

/-- `_get_best_move_simple`: the first move whose successor is in the
table, else the first legal move, else `None`. -/
def getBestMoveSimple (t : Table) (f : Fen) : Option Mv :=
  match (legalMoves f).find? (fun m => (findEntry t (push f m)).isSome) with
  | some m => some m
  | none => (legalMoves f).head?

/-- One iteration of `_simple_backward_induction`: sample up to 1000
positions not in the (stale) `known` set and label the near-mate ones
`(iteration, best_move)`; returns the table and `new_found`. -/
def passOpt (ps known : List Fen) (it : Nat) (t : Table) : Table × Nat :=
  ((ps.filter (fun p => !(known.any (fun q => decide (q = p))))).take
      (min 1000 (ps.length - known.length))).foldl
    (fun acc f =>
      if (findEntry acc.1 f).isSome then acc
      else if isNearMate acc.1 f then
        (putEntry acc.1 f (Val.mate it, getBestMoveSimple acc.1 f), acc.2 + 1)
      else acc)
    (t, 0)

/-- The `while iteration < max_iterations` loop of
`_simple_backward_induction` (`max_iterations = 10`), breaking as soon as
an iteration finds nothing. -/
def loopOpt (ps known : List Fen) : Nat → Nat → Table → Table
  | 0, _, t => t
  | fuel + 1, it, t =>
    let r := passOpt ps known (it + 1) t
    if r.2 = 0 then r.1 else loopOpt ps known fuel (it + 1) r.1

/-- The optimized generator's table after terminal labelling. -/
def optT1 : Table := markTerminalsOpt [] generateAllPositions

/-- `known = set(self.tablebase.keys())` after terminal labelling. -/
def optKnown : List Fen := optT1.map Prod.fst

/-- `OptimizedTablebaseGenerator.generate_tablebase_simple()`: the final
store of the heuristic variant. -/
def generateTablebaseSimple : Table :=
  markDraws (loopOpt generateAllPositions optKnown 10 0 optT1) generateAllPositions

/-- The maximum DTM recorded in a table (0 if none). -/
def maxDtmOf (t : Table) : Nat :=
  t.foldl (fun acc kv =>
    match kv.2.1 with
    | Val.mate d => max acc d
    | Val.draw => acc) 0

/-- A table whose keys could all have been produced by the enumerator:
halfmove clock 0 and both black-side pieces present. -/
def CanonKeys (t : Table) : Prop :=
  ∀ k e, findEntry t k = some e → k.halfmove = 0 ∧ k.wr ≠ none ∧ k.bk ≠ none

/-- The condition under which `_generate_all_positions` emits the tuple
`(wk, wr, bk, stm)`. -/
def EnumCond (wk wr bk : Nat) (stm : Bool) : Prop :=
  wk < 64 ∧ wr < 64 ∧ bk < 64 ∧
    ¬(wk = wr ∨ wk = bk ∨ wr = bk) ∧
    ¬(absDiff (wk / 8) (bk / 8) ≤ 1 ∧ absDiff (wk % 8) (bk % 8) ≤ 1) ∧
    ¬(stm = true ∧ attackedByBlackKing bk wk = true)

instance (wk wr bk : Nat) (stm : Bool) : Decidable (EnumCond wk wr bk stm) := by
  unfold EnumCond; infer_instance

/-- The invariant of every table the backward-induction while-loop ever
sees: keys are canonical enumeration FENs, and every key carrying a MATE
value is a Black-to-move position (the labelled checkmates). -/
def TableInvariant (t : Table) : Prop :=
  CanonKeys t ∧
    ∀ k d mv, findEntry t k = some (Val.mate d, mv) → k.turn = false

/-- Position `p` receives an entry during the pass of
`_backward_induction_fixed` executed at `current_dtm = d` on table `t`. -/
def labeledInPass (d : Nat) (t : Table) (p : Fen) : Prop :=
  findEntry (passFixed generateAllPositions d t).1 p ≠ findEntry t p

/-- Pointwise agreement of the two generators' final stores. -/
def storesAgree : Prop :=
  ∀ k, findEntry generateTablebaseSimple k = findEntry generateKrkTablebase k

/-- The scenario position `7k/R7/7K/8/8/8/8/8 b - - 0 1`: WK h6 = 47,
WR a7 = 48, BK h8 = 63, Black to move. -/
def fenC6 : Fen := mkFen 47 48 63 false

/-- WK b6 = 41, WR h1 = 7, BK a8 = 56, White to move: White mates in one
with Rh1-h8. -/
def fenMateInOne : Fen := mkFen 41 7 56 true

/-- WK b6 = 41, WR h8 = 63, BK a8 = 56, Black to move: checkmate. -/
def fenCheckmate : Fen := mkFen 41 63 56 false

/-- WK h1 = 7, WR a8 = 56, BK b8 = 57, Black to move: Black in check, and
Kb8xa8 captures the rook, reaching a bare-kings position. -/
def fenBlackCapture : Fen := mkFen 7 56 57 false

/-- WK a1 = 0, WR e3 = 20, BK b1 = 1: the kings are adjacent, so this key
is never enumerated. -/
def fenAdjacentKings : Fen := mkFen 0 20 1 true

/-- The bare-kings FEN reached from `fenBlackCapture` by Kb8xa8 (rook
captured, so the halfmove clock resets but the fullmove number becomes 2);
its canonical key, shown here, is never in the store. -/
def fenKK : Fen :=
  { wk := 7, wr := none, bk := some 56, turn := true,
    halfmove := 0, fullmove := 1 }

/-! ## Basic facts about the dict model -/

theorem findEntry_putEntry (t : Table) (k : Fen) (v : Entry) (k2 : Fen) :
    findEntry (putEntry t k v) k2 = if k = k2 then some v else findEntry t k2 := by
  induction t with
  | nil => simp [putEntry, findEntry]
  | cons kv t ih =>
    obtain ⟨k3, v3⟩ := kv
    by_cases h3 : k3 = k
    · subst h3
      by_cases h2 : k3 = k2
      · subst h2; simp [putEntry, findEntry]
      · simp [putEntry, findEntry, h2]
    · by_cases h2 : k3 = k2
      · subst h2
        have hne : k ≠ k3 := fun h => h3 h.symm
        simp [putEntry, findEntry, h3, hne]
      · simp [putEntry, findEntry, h3, h2, ih]

theorem findEntry_nil (k : Fen) : findEntry [] k = none := rfl

theorem canonKeys_nil : CanonKeys [] := by
  intro k e h
  simp [findEntry] at h

/-- Any `board.push` leaves a FEN that either has a nonzero halfmove clock
(non-capture) or is missing a piece (capture). -/
theorem push_not_canonical (f : Fen) (m : Mv) :
    (push f m).halfmove ≠ 0 ∨ (push f m).wr = none ∨ (push f m).bk = none := by
  unfold push
  by_cases ht : f.turn
  · by_cases hc : f.bk = some m.2
    · simp [ht, hc]
    · simp [ht, hc]
  · by_cases hc : f.wr = some m.2
    · simp [ht, hc]
    · simp [ht, hc]

/-- Hence no pushed FEN is ever a key of a canonical-keyed table: the
central reason the backward induction of this program labels nothing. -/
theorem findEntry_push_none (t : Table) (hT : CanonKeys t) (f : Fen) (m : Mv) :
    findEntry t (push f m) = none := by
  cases h : findEntry t (push f m) with
  | none => rfl
  | some e =>
    obtain ⟨h0, hwr, hbk⟩ := hT _ _ h
    rcases push_not_canonical f m with h1 | h1 | h1
    · exact absurd h0 h1
    · exact absurd h1 hwr
    · exact absurd h1 hbk

/-! ## The enumerator -/

theorem mem_generateAllPositions (f : Fen) :
    f ∈ generateAllPositions ↔
      ∃ wk wr bk stm, EnumCond wk wr bk stm ∧ f = mkFen wk wr bk stm := by
  unfold generateAllPositions
  constructor
  · intro h
    rw [List.mem_flatMap] at h
    obtain ⟨wk, hwk, h⟩ := h
    rw [List.mem_flatMap] at h
    obtain ⟨wr, hwr, h⟩ := h
    rw [List.mem_flatMap] at h
    obtain ⟨bk, hbk, h⟩ := h
    rw [List.mem_range] at hwk hwr hbk
    split_ifs at h with h1 h2
    · simp at h
    · simp at h
    · rw [List.mem_filterMap] at h
      obtain ⟨stm, _, hsome⟩ := h
      split_ifs at hsome with h3
      refine ⟨wk, wr, bk, stm, ?_, (Option.some_inj.mp hsome).symm⟩
      unfold EnumCond
      exact ⟨hwk, hwr, hbk, h1, h2, h3⟩
  · rintro ⟨wk, wr, bk, stm, ⟨h1, h2, h3, h4, h5, h6⟩, rfl⟩
    rw [List.mem_flatMap]
    refine ⟨wk, List.mem_range.mpr h1, ?_⟩
    rw [List.mem_flatMap]
    refine ⟨wr, List.mem_range.mpr h2, ?_⟩
    rw [List.mem_flatMap]
    refine ⟨bk, List.mem_range.mpr h3, ?_⟩
    rw [if_neg h4, if_neg h5, List.mem_filterMap]
    refine ⟨stm, by cases stm <;> simp, ?_⟩
    rw [if_neg h6]

/-- Every enumerated FEN has canonical clocks, all three pieces, distinct
squares, non-adjacent kings, and no white king in check on White's turn. -/
theorem shape_of_mem_generateAllPositions (f : Fen) (h : f ∈ generateAllPositions) :
    f.halfmove = 0 ∧ f.fullmove = 1 ∧ f.wr ≠ none ∧ f.bk ≠ none ∧
      (∀ bk, f.bk = some bk →
        ¬(absDiff (f.wk / 8) (bk / 8) ≤ 1 ∧ absDiff (f.wk % 8) (bk % 8) ≤ 1)) := by
  rw [mem_generateAllPositions] at h
  obtain ⟨wk, wr, bk, stm, ⟨_, _, _, _, h5, _⟩, rfl⟩ := h
  refine ⟨rfl, rfl, by simp [mkFen], by simp [mkFen], ?_⟩
  intro bk2 hbk2
  simp [mkFen] at hbk2
  subst hbk2
  exact h5

/-! ## Characterising the labelling folds -/

theorem findEntry_foldl_mark (P : Fen → Bool) (V : Fen → Entry) (ps : List Fen)
    (t : Table) (k : Fen) :
    findEntry (ps.foldl (fun t f => if P f then putEntry t f (V f) else t) t) k =
      if k ∈ ps ∧ P k = true then some (V k) else findEntry t k := by
  induction ps generalizing t with
  | nil => simp
  | cons a ps ih =>
    rw [List.foldl_cons, ih]
    by_cases hk : k ∈ ps ∧ P k = true
    · rw [if_pos hk, if_pos ⟨List.mem_cons_of_mem a hk.1, hk.2⟩]
    · rw [if_neg hk]
      by_cases hak : a = k
      · subst hak
        by_cases hpa : P a = true
        · rw [if_pos hpa, findEntry_putEntry, if_pos rfl,
            if_pos ⟨List.mem_cons_self a ps, hpa⟩]
        · rw [if_neg hpa, if_neg (fun hc => hpa hc.2)]
      · have hcond : ¬(k ∈ a :: ps ∧ P k = true) := fun hc =>
          hk ⟨(List.mem_cons.mp hc.1).resolve_left (fun e => hak e.symm), hc.2⟩
        by_cases hpa : P a = true
        · rw [if_pos hpa, findEntry_putEntry, if_neg hak, if_neg hcond]
        · rw [if_neg hpa, if_neg hcond]

theorem findEntry_markCheckmates (ps : List Fen) (t : Table) (k : Fen) :
    findEntry (markCheckmates t ps) k =
      if k ∈ ps ∧ isCheckmate k = true then some (Val.mate 0, none)
      else findEntry t k :=
  findEntry_foldl_mark isCheckmate (fun _ => (Val.mate 0, none)) ps t k

theorem findEntry_markStalemates (ps : List Fen) (t : Table) (k : Fen) :
    findEntry (markStalemates t ps) k =
      if k ∈ ps ∧ isStalemate k = true then some (Val.draw, none)
      else findEntry t k :=
  findEntry_foldl_mark isStalemate (fun _ => (Val.draw, none)) ps t k

theorem findEntry_markDraws (ps : List Fen) (t : Table) (k : Fen) :
    findEntry (markDraws t ps) k =
      if findEntry t k = none ∧ k ∈ ps then some (Val.draw, none)
      else findEntry t k := by
  induction ps generalizing t with
  | nil => simp [markDraws]
  | cons a ps ih =>
    rw [markDraws, List.foldl_cons]
    rw [show (List.foldl
        (fun t f => if (findEntry t f).isSome then t else putEntry t f (Val.draw, none)) _ ps) =
      markDraws (if (findEntry t a).isSome then t else putEntry t a (Val.draw, none)) ps from rfl]
    rw [ih]
    by_cases hak : a = k
    · subst hak
      by_cases hfa : (findEntry t a).isSome
      · rw [if_pos hfa]
        obtain ⟨e, he⟩ := Option.isSome_iff_exists.mp hfa
        rw [he]
        rw [if_neg (by simp), if_neg (by simp)]
      · rw [if_neg hfa]
        have hfp : findEntry (putEntry t a (Val.draw, none)) a =
            some (Val.draw, none) := by rw [findEntry_putEntry, if_pos rfl]
        have hfa2 : findEntry t a = none := by
          cases hq : findEntry t a with
          | none => rfl
          | some e => rw [hq] at hfa; simp at hfa
        rw [hfp, hfa2]
        rw [if_neg (by simp), if_pos ⟨rfl, List.mem_cons_self a ps⟩]
    · have hfind : findEntry (if (findEntry t a).isSome then t
          else putEntry t a (Val.draw, none)) k = findEntry t k := by
        by_cases hfa : (findEntry t a).isSome
        · rw [if_pos hfa]
        · rw [if_neg hfa, findEntry_putEntry, if_neg hak]
      rw [hfind]
      by_cases hc : findEntry t k = none ∧ k ∈ ps
      · rw [if_pos hc, if_pos ⟨hc.1, List.mem_cons_of_mem a hc.2⟩]
      · rw [if_neg hc, if_neg (fun hc2 => hc ⟨hc2.1,
          (List.mem_cons.mp hc2.2).resolve_left (fun e => hak e.symm)⟩)]

/-- A position cannot be both checkmate and stalemate. -/
theorem not_checkmate_of_stalemate (f : Fen) (h : isStalemate f = true) :
    isCheckmate f = false := by
  unfold isStalemate at h
  unfold isCheckmate
  rcases Bool.and_eq_true _ _ |>.mp h with ⟨h1, _⟩
  cases hc : isCheck f
  · rfl
  · rw [hc] at h1; simp at h1

theorem findEntry_fixedT1 (k : Fen) :
    findEntry fixedT1 k =
      if k ∈ generateAllPositions ∧ isCheckmate k = true then some (Val.mate 0, none)
      else none := by
  rw [fixedT1, findEntry_markCheckmates]
  rfl

theorem findEntry_fixedT2 (k : Fen) :
    findEntry fixedT2 k =
      if k ∈ generateAllPositions ∧ isCheckmate k = true then some (Val.mate 0, none)
      else if k ∈ generateAllPositions ∧ isStalemate k = true then some (Val.draw, none)
      else none := by
  rw [fixedT2, findEntry_markStalemates, findEntry_fixedT1]
  by_cases hs : k ∈ generateAllPositions ∧ isStalemate k = true
  · rw [if_pos hs, if_neg (fun hc => by
      rw [not_checkmate_of_stalemate k hs.2] at hc; exact absurd hc.2 (by simp)),
      if_pos hs]
  · rw [if_neg hs, if_neg hs]

theorem canonKeys_fixedT2 : CanonKeys fixedT2 := by
  intro k e h
  rw [findEntry_fixedT2] at h
  have hk : k ∈ generateAllPositions := by
    by_cases h1 : k ∈ generateAllPositions ∧ isCheckmate k = true
    · exact h1.1
    · rw [if_neg h1] at h
      by_cases h2 : k ∈ generateAllPositions ∧ isStalemate k = true
      · exact h2.1
      · rw [if_neg h2] at h; exact absurd h (by simp)
  obtain ⟨h0, _, hwr, hbk, _⟩ := shape_of_mem_generateAllPositions k hk
  exact ⟨h0, hwr, hbk⟩

/-! ## The backward-induction pass is a no-op on canonical tables -/

theorem whiteBestAux_none (t : Table) (hT : CanonKeys t) (f : Fen) (ms : List Mv) :
    whiteBestAux t f ms (none, none) = (none, none) := by
  induction ms with
  | nil => rfl
  | cons m ms ih =>
    unfold whiteBestAux
    rw [findEntry_push_none t hT f m]
    exact ih

theorem blackAllLose_none (t : Table) (hT : CanonKeys t) (f : Fen) (m : Mv)
    (ms : List Mv) (w : Nat) : blackAllLose t f (m :: ms) w = none := by
  unfold blackAllLose
  rw [findEntry_push_none t hT f m]

theorem stepFixed_id (d : Nat) (t : Table) (hT : CanonKeys t) (found : Bool)
    (f : Fen) : stepFixed d (t, found) f = (t, found) := by
  simp only [stepFixed]
  by_cases h1 : (findEntry t f).isSome
  · rw [if_pos h1]
  · rw [if_neg h1]
    by_cases ht2 : f.turn = true
    · rw [if_pos ht2, whiteBestAux_none t hT f (legalMoves f)]
    · rw [if_neg ht2]
      cases hl : legalMoves f with
      | nil => rw [if_pos rfl]
      | cons m ms =>
        rw [if_neg (by simp), blackAllLose_none t hT f m ms 0]

theorem passFixed_id (ps : List Fen) (d : Nat) (t : Table) (hT : CanonKeys t) :
    passFixed ps d t = (t, false) := by
  unfold passFixed
  induction ps with
  | nil => rfl
  | cons a ps ih =>
    rw [List.foldl_cons, stepFixed_id d t hT false a]
    exact ih

theorem loopFixed_stops (ps : List Fen) (t : Table) (hT : CanonKeys t)
    (fuel dtm : Nat) (hfuel : fuel ≠ 0) : loopFixed ps fuel dtm t = (t, 1) := by
  cases fuel with
  | zero => exact absurd rfl hfuel
  | succ n =>
    unfold loopFixed
    rw [passFixed_id ps (dtm + 1) t hT]
    rfl

theorem fixedLoopResult_eq : fixedLoopResult = (fixedT2, 1) := by
  rw [fixedLoopResult]
  exact loopFixed_stops generateAllPositions fixedT2 canonKeys_fixedT2 50 0
    (by omega)

/-- The final store of `generate_krk_tablebase`: exactly the enumerated
positions are keys, checkmates map to `(MATE 0, None)` and everything else
to `('DRAW', None)`. -/
theorem findEntry_generateKrkTablebase (k : Fen) :
    findEntry generateKrkTablebase k =
      if k ∈ generateAllPositions then
        some (if isCheckmate k = true then (Val.mate 0, none) else (Val.draw, none))
      else none := by
  have h2 : fixedLoopResult.1 = fixedT2 := by rw [fixedLoopResult_eq]
  have h1 : generateKrkTablebase = markDraws fixedT2 generateAllPositions := by
    have h0 : generateKrkTablebase =
        markDraws fixedLoopResult.1 generateAllPositions := rfl
    rw [h0, h2]
  rw [h1, findEntry_markDraws, findEntry_fixedT2]
  by_cases hm : k ∈ generateAllPositions
  · by_cases hc : isCheckmate k = true
    · rw [if_pos (And.intro hm hc)]
      have hn : ¬(some ((Val.mate 0 : Val), (none : Option Mv)) = none ∧
          k ∈ generateAllPositions) := by simp
      rw [if_neg hn, if_pos hm, if_pos hc]
    · have hn1 : ¬(k ∈ generateAllPositions ∧ isCheckmate k = true) :=
        fun h2 => hc h2.2
      rw [if_neg hn1]
      by_cases hs : isStalemate k = true
      · rw [if_pos (And.intro hm hs)]
        have hn : ¬(some ((Val.draw : Val), (none : Option Mv)) = none ∧
            k ∈ generateAllPositions) := by simp
        rw [if_neg hn, if_pos hm, if_neg hc]
      · have hn2 : ¬(k ∈ generateAllPositions ∧ isStalemate k = true) :=
          fun h2 => hs h2.2
        rw [if_neg hn2]
        have hp : ((none : Option Entry) = none ∧ k ∈ generateAllPositions) :=
          ⟨rfl, hm⟩
        rw [if_pos hp, if_pos hm, if_neg hc]
  · have hn1 : ¬(k ∈ generateAllPositions ∧ isCheckmate k = true) :=
      fun h2 => hm h2.1
    have hn2 : ¬(k ∈ generateAllPositions ∧ isStalemate k = true) :=
      fun h2 => hm h2.1
    rw [if_neg hn1, if_neg hn2]
    have hn3 : ¬((none : Option Entry) = none ∧ k ∈ generateAllPositions) :=
      fun h2 => hm h2.2
    rw [if_neg hn3, if_neg hm]

/-! ## Checkmates in the store are Black-to-move -/

theorem absDiff_comm (a b : Nat) : absDiff a b = absDiff b a := by
  unfold absDiff
  rw [Nat.max_comm, Nat.min_comm]

theorem isCheck_white_false (k : Fen) (hk : k ∈ generateAllPositions)
    (ht : k.turn = true) : isCheck k = false := by
  obtain ⟨_, _, _, _, hadj⟩ := shape_of_mem_generateAllPositions k hk
  unfold isCheck
  rw [if_pos ht]
  cases hb : k.bk with
  | none => rfl
  | some b =>
    have hfalse : kingAdjacent b k.wk = false := by
      cases hadj2 : kingAdjacent b k.wk with
      | false => rfl
      | true =>
        exfalso
        unfold kingAdjacent at hadj2
        rcases Bool.and_eq_true _ _ |>.mp hadj2 with ⟨h12, h3⟩
        rcases Bool.and_eq_true _ _ |>.mp h12 with ⟨_, h2⟩
        have h2p := of_decide_eq_true h2
        have h3p := of_decide_eq_true h3
        exact hadj b hb ⟨by rw [absDiff_comm]; exact h2p,
          by rw [absDiff_comm]; exact h3p⟩
    simp [hfalse]

theorem checkmate_turn_black (k : Fen) (hk : k ∈ generateAllPositions)
    (hc : isCheckmate k = true) : k.turn = false := by
  cases ht : k.turn with
  | false => rfl
  | true =>
    exfalso
    unfold isCheckmate at hc
    rcases Bool.and_eq_true _ _ |>.mp hc with ⟨hchk, _⟩
    rw [isCheck_white_false k hk ht] at hchk
    exact Bool.false_ne_true hchk

/-- Unpacking an entry of the final store: it is either a checkmate labelled
`(MATE 0, None)` or a non-checkmate labelled `('DRAW', None)`, and its key
was enumerated. -/
theorem final_entry_cases (k : Fen) (e : Entry)
    (h : findEntry generateKrkTablebase k = some e) :
    k ∈ generateAllPositions ∧
      ((e = (Val.mate 0, none) ∧ isCheckmate k = true) ∨
        (e = (Val.draw, none) ∧ isCheckmate k = false)) := by
  rw [findEntry_generateKrkTablebase] at h
  by_cases hm : k ∈ generateAllPositions
  · rw [if_pos hm] at h
    refine ⟨hm, ?_⟩
    by_cases hc : isCheckmate k = true
    · rw [if_pos hc] at h
      exact Or.inl ⟨(Option.some_inj.mp h).symm, hc⟩
    · rw [if_neg hc] at h
      exact Or.inr ⟨(Option.some_inj.mp h).symm, Bool.not_eq_true _ ▸ hc⟩
  · rw [if_neg hm] at h
    exact absurd h (by simp)

/-! ## The optimized generator -/

theorem findEntry_markTerminalsOpt (ps : List Fen) (t : Table) (k : Fen) :
    findEntry (markTerminalsOpt t ps) k =
      if k ∈ ps ∧ (isCheckmate k || isStalemate k) = true then
        some (if isCheckmate k = true then (Val.mate 0, none) else (Val.draw, none))
      else findEntry t k := by
  have hstep : (fun (t : Table) (f : Fen) =>
      if isCheckmate f then putEntry t f (Val.mate 0, none)
      else if isStalemate f then putEntry t f (Val.draw, none)
      else t) = (fun (t : Table) (f : Fen) =>
      if (isCheckmate f || isStalemate f) then
        putEntry t f
          (if isCheckmate f = true then (Val.mate 0, none) else (Val.draw, none))
      else t) := by
    funext t f
    by_cases hc : isCheckmate f = true
    · simp [hc]
    · by_cases hs : isStalemate f = true
      · simp [hc, hs]
      · simp [hc, hs]
  rw [markTerminalsOpt, hstep]
  exact findEntry_foldl_mark (fun f => isCheckmate f || isStalemate f)
    (fun f => if isCheckmate f = true then (Val.mate 0, none) else (Val.draw, none))
    ps t k

theorem findEntry_optT1 (k : Fen) :
    findEntry optT1 k =
      if k ∈ generateAllPositions ∧ (isCheckmate k || isStalemate k) = true then
        some (if isCheckmate k = true then (Val.mate 0, none) else (Val.draw, none))
      else none := by
  rw [optT1, findEntry_markTerminalsOpt]
  rfl

theorem canonKeys_optT1 : CanonKeys optT1 := by
  intro k e h
  rw [findEntry_optT1] at h
  by_cases hm : k ∈ generateAllPositions ∧ (isCheckmate k || isStalemate k) = true
  · obtain ⟨h0, _, hwr, hbk, _⟩ := shape_of_mem_generateAllPositions k hm.1
    exact ⟨h0, hwr, hbk⟩
  · rw [if_neg hm] at h
    exact absurd h (by simp)

theorem isNearMate_false (t : Table) (hT : CanonKeys t) (f : Fen) :
    isNearMate t f = false := by
  unfold isNearMate
  rw [List.any_eq_false]
  intro m _
  rw [findEntry_push_none t hT f m]
  simp

theorem foldlOptStep_id (t : Table) (hT : CanonKeys t) (it : Nat) (n : Nat)
    (l : List Fen) :
    l.foldl (fun acc f =>
      if (findEntry acc.1 f).isSome then acc
      else if isNearMate acc.1 f then
        (putEntry acc.1 f (Val.mate it, getBestMoveSimple acc.1 f), acc.2 + 1)
      else acc) (t, n) = (t, n) := by
  induction l with
  | nil => rfl
  | cons a l ih =>
    rw [List.foldl_cons]
    have hstep : (if (findEntry ((t, n) : Table × Nat).1 a).isSome then ((t, n) : Table × Nat)
        else if isNearMate ((t, n) : Table × Nat).1 a then
          (putEntry ((t, n) : Table × Nat).1 a
            (Val.mate it, getBestMoveSimple ((t, n) : Table × Nat).1 a),
            ((t, n) : Table × Nat).2 + 1)
        else (t, n)) = (t, n) := by
      by_cases h1 : (findEntry t a).isSome
      · rw [if_pos h1]
      · rw [if_neg h1]
        rw [show isNearMate ((t, n) : Table × Nat).1 a = false from
          isNearMate_false t hT a]
        rw [if_neg (by simp)]
    rw [hstep]
    exact ih

theorem passOpt_id (ps known : List Fen) (it : Nat) (t : Table)
    (hT : CanonKeys t) : passOpt ps known it t = (t, 0) := by
  unfold passOpt
  exact foldlOptStep_id t hT it 0 _

theorem loopOpt_stops (ps known : List Fen) (t : Table) (hT : CanonKeys t)
    (fuel it : Nat) (hfuel : fuel ≠ 0) : loopOpt ps known fuel it t = t := by
  cases fuel with
  | zero => exact absurd rfl hfuel
  | succ n =>
    unfold loopOpt
    rw [passOpt_id ps known (it + 1) t hT]
    rfl

/-- The final store of the optimized variant coincides pointwise with the
final store of the fixed variant. -/
theorem findEntry_generateTablebaseSimple (k : Fen) :
    findEntry generateTablebaseSimple k =
      if k ∈ generateAllPositions then
        some (if isCheckmate k = true then (Val.mate 0, none) else (Val.draw, none))
      else none := by
  have h2 : loopOpt generateAllPositions optKnown 10 0 optT1 = optT1 :=
    loopOpt_stops generateAllPositions optKnown optT1 canonKeys_optT1 10 0
      (by omega)
  have h1 : generateTablebaseSimple = markDraws optT1 generateAllPositions := by
    have h0 : generateTablebaseSimple =
        markDraws (loopOpt generateAllPositions optKnown 10 0 optT1)
          generateAllPositions := rfl
    rw [h0, h2]
  rw [h1, findEntry_markDraws, findEntry_optT1]
  by_cases hm : k ∈ generateAllPositions
  · by_cases hterm : (isCheckmate k || isStalemate k) = true
    · rw [if_pos (And.intro hm hterm)]
      have hn : ¬(some (if isCheckmate k = true then ((Val.mate 0 : Val), (none : Option Mv))
          else (Val.draw, none)) = none ∧ k ∈ generateAllPositions) := by simp
      rw [if_neg hn, if_pos hm]
    · have hn1 : ¬(k ∈ generateAllPositions ∧ (isCheckmate k || isStalemate k) = true) :=
        fun h3 => hterm h3.2
      rw [if_neg hn1]
      have hp : ((none : Option Entry) = none ∧ k ∈ generateAllPositions) := ⟨rfl, hm⟩
      rw [if_pos hp, if_pos hm]
      have hc : isCheckmate k = false := by
        cases hq : isCheckmate k with
        | false => rfl
        | true => exact absurd (by rw [hq]; simp) hterm
      rw [hc]
      simp
  · have hn1 : ¬(k ∈ generateAllPositions ∧ (isCheckmate k || isStalemate k) = true) :=
      fun h3 => hm h3.1
    rw [if_neg hn1]
    have hn3 : ¬((none : Option Entry) = none ∧ k ∈ generateAllPositions) :=
      fun h3 => hm h3.2
    rw [if_neg hn3, if_neg hm]

/-! ## Pickle round trip -/

theorem pickleLoad_pickleDump (t : Table) : pickleLoad (pickleDump t) = t := by
  induction t with
  | nil => rfl
  | cons kv t ih =>
    have hstep : pickleDump (kv :: t) = encodeRecord kv ++ pickleDump t := by
      simp [pickleDump]
    rw [hstep]
    obtain ⟨⟨wk, wr, bk, turn, half, full⟩, v, m⟩ := kv
    cases wr <;> cases bk <;> cases turn <;> cases v <;> cases m <;>
      simp [encodeRecord, pickleLoad, ih]

/-! ## Further shared lemmas -/

theorem kingAdjacent_false_of_cheb (wk bk : Nat)
    (h : 2 ≤ max (absDiff (wk / 8) (bk / 8)) (absDiff (wk % 8) (bk % 8))) :
    kingAdjacent bk wk = false := by
  cases hq : kingAdjacent bk wk with
  | false => rfl
  | true =>
    exfalso
    unfold kingAdjacent at hq
    rcases Bool.and_eq_true _ _ |>.mp hq with ⟨h12, h3⟩
    rcases Bool.and_eq_true _ _ |>.mp h12 with ⟨-, h2⟩
    have h2p := of_decide_eq_true h2
    have h3p := of_decide_eq_true h3
    rw [absDiff_comm (bk / 8) (wk / 8)] at h2p
    rw [absDiff_comm (bk % 8) (wk % 8)] at h3p
    rcases le_max_iff.mp h with hx | hx
    · omega
    · omega

/-- The pre-pass table of the only executed pass of the real run satisfies
the invariant quantified over in the step characterisation. -/
theorem tableInvariant_fixedT2 : TableInvariant fixedT2 := by
  refine ⟨canonKeys_fixedT2, ?_⟩
  intro k d mv h
  rw [findEntry_fixedT2] at h
  by_cases h1 : k ∈ generateAllPositions ∧ isCheckmate k = true
  · exact checkmate_turn_black k h1.1 h1.2
  · rw [if_neg h1] at h
    by_cases h2 : k ∈ generateAllPositions ∧ isStalemate k = true
    · rw [if_pos h2] at h
      simp at h
    · rw [if_neg h2] at h
      simp at h

theorem tableInvariant_nil : TableInvariant [] :=
  ⟨canonKeys_nil, fun k d mv h => by simp [findEntry] at h⟩

theorem mem_fenC6 : fenC6 ∈ generateAllPositions :=
  (mem_generateAllPositions fenC6).mpr ⟨47, 48, 63, false, by decide, rfl⟩

theorem mem_fenCheckmate : fenCheckmate ∈ generateAllPositions :=
  (mem_generateAllPositions fenCheckmate).mpr ⟨41, 63, 56, false, by decide, rfl⟩

theorem mem_fenMateInOne : fenMateInOne ∈ generateAllPositions :=
  (mem_generateAllPositions fenMateInOne).mpr ⟨41, 7, 56, true, by decide, rfl⟩

theorem mem_fenBlackCapture : fenBlackCapture ∈ generateAllPositions :=
  (mem_generateAllPositions fenBlackCapture).mpr ⟨7, 56, 57, false, by decide, rfl⟩

theorem final_fenCheckmate :
    findEntry generateKrkTablebase fenCheckmate = some (Val.mate 0, none) := by
  rw [findEntry_generateKrkTablebase, if_pos mem_fenCheckmate,
    show isCheckmate fenCheckmate = true from by decide]
  rfl

/-! ## Claim theorems -/

/-- C1: during construction, a Black-to-move position `p` is labeled MATE
at step `d+1` if and only if `p` has at least one legal move, every legal
successor of `p` is already labeled with a MATE value, and the maximum
successor DTM equals `d`; in that case the recorded entry is
`MATE(d+1)` with a legal move attaining that maximum.  If some legal
successor of `p` is DRAW or unlabeled in the final store (in particular
the bare-kings position reached by Black capturing the rook), `p` is never
labeled MATE and ends as DRAW. -/
theorem C1_black_label_characterization :
    (∀ (t : Table), TableInvariant t → ∀ (d : Nat) (p : Fen), p.turn = false →
      ((labeledInPass (d + 1) t p ↔
        (legalMoves p ≠ [] ∧
          (∀ m ∈ legalMoves p, ∃ d2 e2,
            findEntry t (canonical (push p m)) = some (Val.mate d2, e2)) ∧
          (∃ m ∈ legalMoves p, ∃ e2,
            findEntry t (canonical (push p m)) = some (Val.mate d, e2)) ∧
          (∀ m ∈ legalMoves p, ∀ d2 e2,
            findEntry t (canonical (push p m)) = some (Val.mate d2, e2) →
              d2 ≤ d))) ∧
        (labeledInPass (d + 1) t p →
          ∃ m ∈ legalMoves p,
            findEntry (passFixed generateAllPositions (d + 1) t).1 p =
                some (Val.mate (d + 1), some m) ∧
              ∃ e2, findEntry t (canonical (push p m)) = some (Val.mate d, e2)))) ∧
    (∀ p, p ∈ generateAllPositions → p.turn = false →
      (∃ m ∈ legalMoves p, ∀ d2 e2,
        findEntry generateKrkTablebase (canonical (push p m)) ≠
          some (Val.mate d2, e2)) →
      findEntry generateKrkTablebase p = some (Val.draw, none)) := by
  constructor
  · intro t hInv d p hturn
    have hpass := passFixed_id generateAllPositions (d + 1) t hInv.1
    have hnolabel : ¬ labeledInPass (d + 1) t p := by
      unfold labeledInPass
      rw [hpass]
      simp
    constructor
    · constructor
      · intro hl
        exact absurd hl hnolabel
      · rintro ⟨hne, hall, -, -⟩
        exfalso
        obtain ⟨m, hm⟩ := List.exists_mem_of_ne_nil _ hne
        obtain ⟨d2, e2, hfind⟩ := hall m hm
        have hturn2 := hInv.2 _ _ _ hfind
        have hturn3 : (canonical (push p m)).turn = true := by
          simp [canonical, push, hturn]
        rw [hturn2] at hturn3
        exact Bool.false_ne_true hturn3
    · intro hl
      exact absurd hl hnolabel
  · rintro p hp hturn ⟨m, hm, -⟩
    have hchar := findEntry_generateKrkTablebase p
    rw [if_pos hp] at hchar
    have hcm : isCheckmate p = false := by
      cases hq : isCheckmate p with
      | false => rfl
      | true =>
        exfalso
        unfold isCheckmate at hq
        rcases Bool.and_eq_true _ _ |>.mp hq with ⟨-, hl2⟩
        rw [of_decide_eq_true hl2] at hm
        exact absurd hm (List.not_mem_nil m)
    rw [hcm] at hchar
    simpa using hchar

/-- Witness for C1 at the concrete Black-to-move position `fenBlackCapture`
(whose rook-capture successor is the bare-kings draw), with the empty table
as an invariant-satisfying pass table at `d = 0`. -/
theorem C1_witness :
    (labeledInPass 1 [] fenBlackCapture ↔
      (legalMoves fenBlackCapture ≠ [] ∧
        (∀ m ∈ legalMoves fenBlackCapture, ∃ d2 e2,
          findEntry [] (canonical (push fenBlackCapture m)) =
            some (Val.mate d2, e2)) ∧
        (∃ m ∈ legalMoves fenBlackCapture, ∃ e2,
          findEntry [] (canonical (push fenBlackCapture m)) =
            some (Val.mate 0, e2)) ∧
        (∀ m ∈ legalMoves fenBlackCapture, ∀ d2 e2,
          findEntry [] (canonical (push fenBlackCapture m)) =
            some (Val.mate d2, e2) → d2 ≤ 0))) ∧
    findEntry generateKrkTablebase fenBlackCapture = some (Val.draw, none) := by
  constructor
  · exact (C1_black_label_characterization.1 [] tableInvariant_nil 0
      fenBlackCapture rfl).1
  · refine C1_black_label_characterization.2 fenBlackCapture
      mem_fenBlackCapture rfl ⟨(57, 56), by decide, ?_⟩
    intro d2 e2
    have hkk : canonical (push fenBlackCapture (57, 56)) = fenKK := by decide
    rw [hkk]
    have hnm : fenKK ∉ generateAllPositions := by
      intro hmem2
      obtain ⟨-, -, hwr, -, -⟩ := shape_of_mem_generateAllPositions _ hmem2
      exact hwr rfl
    rw [findEntry_generateKrkTablebase, if_neg hnm]
    simp

/-- C2 (code bug exhibit): `fenMateInOne` has the legal move Rh1-h8 whose
successor position is stored as MATE(0) under its canonical key, so by the
claim it should be labeled MATE(1) at step 1; but the key the code looks up
is the pushed FEN with halfmove clock 1, so the position is never labeled
and the final store records it as DRAW. -/
theorem C2_fixed_induction_never_labels :
    (7, 63) ∈ legalMoves fenMateInOne ∧
    push fenMateInOne (7, 63) =
      { wk := 41, wr := some 63, bk := some 56, turn := false,
        halfmove := 1, fullmove := 1 } ∧
    canonical (push fenMateInOne (7, 63)) = fenCheckmate ∧
    findEntry generateKrkTablebase fenCheckmate = some (Val.mate 0, none) ∧
    findEntry generateKrkTablebase fenMateInOne = some (Val.draw, none) := by
  refine ⟨by decide, by decide, by decide, final_fenCheckmate, ?_⟩
  rw [findEntry_generateKrkTablebase, if_pos mem_fenMateInOne,
    show isCheckmate fenMateInOne = false from by decide]
  rfl

/-- C3: entries are never overwritten or removed once written (from each
stage of the construction to the final store), the loop stops at a pass
that labels nothing, and the number of executed passes is at most
`maxDTM + 1` and at most the cap of 50. -/
theorem C3_monotone_saturation :
    (∀ k e, findEntry fixedT1 k = some e →
        findEntry generateKrkTablebase k = some e) ∧
    (∀ k e, findEntry fixedT2 k = some e →
        findEntry generateKrkTablebase k = some e) ∧
    (∀ k e, findEntry fixedLoopResult.1 k = some e →
        findEntry generateKrkTablebase k = some e) ∧
    (passFixed generateAllPositions fixedLoopResult.2 fixedT2).2 = false ∧
    fixedLoopResult.2 ≤ maxDtmOf generateKrkTablebase + 1 ∧
    fixedLoopResult.2 ≤ 50 := by
  have hT2 : ∀ k e, findEntry fixedT2 k = some e →
      findEntry generateKrkTablebase k = some e := by
    intro k e h
    rw [findEntry_fixedT2] at h
    rw [findEntry_generateKrkTablebase]
    by_cases h1 : k ∈ generateAllPositions ∧ isCheckmate k = true
    · rw [if_pos h1] at h
      rw [if_pos h1.1, if_pos h1.2]
      exact h
    · rw [if_neg h1] at h
      by_cases h2 : k ∈ generateAllPositions ∧ isStalemate k = true
      · rw [if_pos h2] at h
        rw [if_pos h2.1, if_neg (by
          rw [not_checkmate_of_stalemate k h2.2]
          simp)]
        exact h
      · rw [if_neg h2] at h
        exact absurd h (by simp)
  have hp1 : fixedLoopResult.1 = fixedT2 := by rw [fixedLoopResult_eq]
  have hp2 : fixedLoopResult.2 = 1 := by rw [fixedLoopResult_eq]
  refine ⟨?_, hT2, ?_, ?_, ?_, ?_⟩
  · intro k e h
    rw [findEntry_fixedT1] at h
    by_cases h1 : k ∈ generateAllPositions ∧ isCheckmate k = true
    · rw [if_pos h1] at h
      rw [findEntry_generateKrkTablebase, if_pos h1.1, if_pos h1.2]
      exact h
    · rw [if_neg h1] at h
      exact absurd h (by simp)
  · intro k e h
    rw [hp1] at h
    exact hT2 k e h
  · rw [hp2, passFixed_id generateAllPositions 1 fixedT2 canonKeys_fixedT2]
  · rw [hp2]
    omega
  · rw [hp2]
    omega

/-- Witness for C3: the checkmate entry written in step 2 survives
unchanged into the final store. -/
theorem C3_witness :
    findEntry fixedT1 fenCheckmate = some (Val.mate 0, none) ∧
    findEntry generateKrkTablebase fenCheckmate = some (Val.mate 0, none) := by
  have h1 : findEntry fixedT1 fenCheckmate = some (Val.mate 0, none) := by
    rw [findEntry_fixedT1,
      if_pos ⟨mem_fenCheckmate, show isCheckmate fenCheckmate = true from by decide⟩]
  exact ⟨h1, C3_monotone_saturation.1 fenCheckmate (Val.mate 0, none) h1⟩

/-- C4: the enumerator emits `(wk, wr, bk, stm)` iff the squares are
pairwise distinct, the kings are at Chebyshev distance at least 2, and on
White's turn the white king is not attacked by Black; in particular,
White-to-move positions whose black king stands on a square attacked by
the white rook are enumerated. -/
theorem C4_enumeration_iff :
    (∀ (wk wr bk : Nat) (stm : Bool),
      mkFen wk wr bk stm ∈ generateAllPositions ↔
        (wk < 64 ∧ wr < 64 ∧ bk < 64 ∧ wk ≠ wr ∧ wk ≠ bk ∧ wr ≠ bk ∧
          2 ≤ max (absDiff (wk / 8) (bk / 8)) (absDiff (wk % 8) (bk % 8)) ∧
          (stm = true → attackedByBlackKing bk wk = false))) ∧
    (∀ (wk wr bk : Nat), wk < 64 → wr < 64 → bk < 64 →
      wk ≠ wr → wk ≠ bk → wr ≠ bk →
      2 ≤ max (absDiff (wk / 8) (bk / 8)) (absDiff (wk % 8) (bk % 8)) →
      rookAttacksFrom [wk] wr bk = true →
      mkFen wk wr bk true ∈ generateAllPositions) := by
  have hmax : ∀ x y : Nat, (¬(x ≤ 1 ∧ y ≤ 1)) ↔ 2 ≤ max x y := by
    intro x y
    rw [le_max_iff]
    omega
  have hpart1 : ∀ (wk wr bk : Nat) (stm : Bool),
      mkFen wk wr bk stm ∈ generateAllPositions ↔
        (wk < 64 ∧ wr < 64 ∧ bk < 64 ∧ wk ≠ wr ∧ wk ≠ bk ∧ wr ≠ bk ∧
          2 ≤ max (absDiff (wk / 8) (bk / 8)) (absDiff (wk % 8) (bk % 8)) ∧
          (stm = true → attackedByBlackKing bk wk = false)) := by
    intro wk wr bk stm
    rw [mem_generateAllPositions]
    constructor
    · rintro ⟨a, b, c, s, hcond, heq⟩
      have hcomp : wk = a ∧ wr = b ∧ bk = c ∧ stm = s := by
        unfold mkFen at heq
        rw [Fen.mk.injEq] at heq
        exact ⟨heq.1, Option.some_inj.mp heq.2.1, Option.some_inj.mp heq.2.2.1,
          heq.2.2.2.1⟩
      obtain ⟨he1, he2, he3, he4⟩ := hcomp
      subst he1
      subst he2
      subst he3
      subst he4
      obtain ⟨h1, h2, h3, h4, h5, h6⟩ := hcond
      push_neg at h4
      refine ⟨h1, h2, h3, h4.1, h4.2.1, h4.2.2, (hmax _ _).mp h5, ?_⟩
      intro hs
      cases hq : attackedByBlackKing bk wk with
      | false => rfl
      | true => exact absurd ⟨hs, hq⟩ h6
    · rintro ⟨h1, h2, h3, h4, h5, h6, h7, h8⟩
      refine ⟨wk, wr, bk, stm, ⟨h1, h2, h3, ?_, (hmax _ _).mpr h7, ?_⟩, rfl⟩
      · push_neg
        exact ⟨h4, h5, h6⟩
      · rintro ⟨hs, hatt⟩
        rw [h8 hs] at hatt
        exact Bool.false_ne_true hatt
  refine ⟨hpart1, ?_⟩
  intro wk wr bk h1 h2 h3 h4 h5 h6 h7 _
  exact (hpart1 wk wr bk true).mpr
    ⟨h1, h2, h3, h4, h5, h6, h7, fun _ => kingAdjacent_false_of_cheb wk bk h7⟩

/-- Witness for C4: the mate-in-one position is enumerated, and so is a
White-to-move position whose black king is attacked by the rook
(WK a1, WR h2, BK h8). -/
theorem C4_witness :
    mkFen 41 7 56 true ∈ generateAllPositions ∧
    mkFen 0 15 63 true ∈ generateAllPositions ∧
    rookAttacksFrom [0] 15 63 = true := by
  refine ⟨?_, ?_, by decide⟩
  · exact (C4_enumeration_iff.1 41 7 56 true).mpr (by decide)
  · exact C4_enumeration_iff.2 0 15 63 (by decide) (by decide) (by decide)
      (by decide) (by decide) (by decide) (by decide) (by decide)

/-- C5 counterexample: the negation of the claimed inequivalence — the
heuristic generator's store agrees with the fixed generator's store on
every key. -/
theorem C5_counterexample : storesAgree := by
  intro k
  rw [findEntry_generateTablebaseSimple, findEntry_generateKrkTablebase]

/-- C5 (amended): the heuristic generator is extensionally equal to the
fixed retrograde generator — both label exactly the checkmates MATE(0)
and every other enumerated position DRAW, because neither induction ever
finds a successor key in the store. -/
theorem C5_optimized_equals_fixed :
    ∀ k, findEntry generateTablebaseSimple k = findEntry generateKrkTablebase k ∧
      (k ∈ generateAllPositions →
        findEntry generateKrkTablebase k =
          some (if isCheckmate k = true then (Val.mate 0, none)
            else (Val.draw, none))) := by
  intro k
  constructor
  · rw [findEntry_generateTablebaseSimple, findEntry_generateKrkTablebase]
  · intro hm
    rw [findEntry_generateKrkTablebase, if_pos hm]

/-- Witness for C5 at the concrete position `fenC6`. -/
theorem C5_witness :
    findEntry generateTablebaseSimple fenC6 = findEntry generateKrkTablebase fenC6 ∧
    findEntry generateKrkTablebase fenC6 =
      some (if isCheckmate fenC6 = true then (Val.mate 0, none)
        else (Val.draw, none)) :=
  ⟨(C5_optimized_equals_fixed fenC6).1,
   (C5_optimized_equals_fixed fenC6).2 mem_fenC6⟩

/-- C6 counterexample: the position `7k/R7/7K/8/8/8/8/8 b - - 0 1` has the
legal move Kh8-g8 and is therefore not stalemate. -/
theorem C6_counterexample :
    (63, 62) ∈ legalMoves fenC6 ∧ isStalemate fenC6 = false := by
  exact ⟨by decide, by decide⟩

/-- C6 (amended): the position has exactly one legal move (h8g8), is not
in check, hence is not stalemate; the constructed tablebase nevertheless
stores it as DRAW with no best move. -/
theorem C6_amended_draw_entry :
    legalMoves fenC6 = [(63, 62)] ∧ isCheck fenC6 = false ∧
      isStalemate fenC6 = false ∧
      findEntry generateKrkTablebase fenC6 = some (Val.draw, none) := by
  refine ⟨by decide, by decide, by decide, ?_⟩
  rw [findEntry_generateKrkTablebase, if_pos mem_fenC6,
    show isCheckmate fenC6 = false from by decide]
  rfl

/-- C7: a query for a key absent from the store returns the not-found
message and leaves the store unchanged, and any key with adjacent kings —
never enumerated — is absent from the final store. -/
theorem C7_query_missing :
    (∀ (t : Table) (k : Fen), findEntry t k = none →
        queryPosition t k = ("Position not found in tablebase", t)) ∧
    (∀ (k : Fen) (b : Nat), k.bk = some b → kingAdjacent k.wk b = true →
        findEntry generateKrkTablebase k = none) := by
  constructor
  · intro t k h
    unfold queryPosition
    rw [h]
  · intro k b hb hadj
    rw [findEntry_generateKrkTablebase]
    rw [if_neg ?hnm]
    case hnm =>
      intro hm
      obtain ⟨-, -, -, -, hsh⟩ := shape_of_mem_generateAllPositions k hm
      unfold kingAdjacent at hadj
      rcases Bool.and_eq_true _ _ |>.mp hadj with ⟨h12, h3⟩
      rcases Bool.and_eq_true _ _ |>.mp h12 with ⟨-, h2⟩
      exact hsh b hb ⟨of_decide_eq_true h2, of_decide_eq_true h3⟩

/-- Witness for C7 at a concrete adjacent-kings key. -/
theorem C7_witness :
    findEntry generateKrkTablebase fenAdjacentKings = none ∧
    queryPosition generateKrkTablebase fenAdjacentKings =
      ("Position not found in tablebase", generateKrkTablebase) := by
  have h := C7_query_missing.2 fenAdjacentKings 1 rfl (by decide)
  exact ⟨h, C7_query_missing.1 generateKrkTablebase fenAdjacentKings h⟩

/-- C8: loading the artifact written by save is the identity on the store,
both as a record list and as a mapping. -/
theorem C8_save_load_roundtrip :
    ∀ t : Table, pickleLoad (pickleDump t) = t ∧
      ∀ k, findEntry (pickleLoad (pickleDump t)) k = findEntry t k := by
  intro t
  exact ⟨pickleLoad_pickleDump t, fun k => by rw [pickleLoad_pickleDump t]⟩

/-- Witness for C8 on a concrete one-entry store. -/
theorem C8_witness :
    pickleLoad (pickleDump [(fenC6, (Val.draw, none))]) =
      [(fenC6, (Val.draw, none))] :=
  (C8_save_load_roundtrip [(fenC6, (Val.draw, none))]).1

/-- C9: in the final store the best-move component is present iff the
value is MATE(d) with d > 0 (here vacuously: every entry is MATE(0) or
DRAW, and none stores a move). -/
theorem C9_best_move_iff :
    ∀ (k : Fen) (v : Val) (m : Option Mv),
      findEntry generateKrkTablebase k = some (v, m) →
      (m ≠ none ↔ ∃ d, v = Val.mate d ∧ 0 < d) := by
  intro k v m h
  obtain ⟨-, hcase⟩ := final_entry_cases k (v, m) h
  rcases hcase with ⟨he, -⟩ | ⟨he, -⟩
  · rw [Prod.mk.injEq] at he
    obtain ⟨rfl, rfl⟩ := he
    constructor
    · intro hne
      exact absurd rfl hne
    · rintro ⟨d, hd, hdpos⟩
      rw [Val.mate.injEq] at hd
      omega
  · rw [Prod.mk.injEq] at he
    obtain ⟨rfl, rfl⟩ := he
    constructor
    · intro hne
      exact absurd rfl hne
    · rintro ⟨d, hd, -⟩
      exact Val.noConfusion hd

/-- Witness for C9 at the concrete checkmate entry. -/
theorem C9_witness :
    ((none : Option Mv) ≠ none ↔ ∃ d, Val.mate 0 = Val.mate d ∧ 0 < d) :=
  C9_best_move_iff fenCheckmate (Val.mate 0) none final_fenCheckmate

/-- C10: every MATE(d) entry of the final store has odd d on White-to-move
keys and even d on Black-to-move keys, and every MATE(0) entry is a
Black-to-move (checkmated) position.  In this store, every MATE entry is a
MATE(0) checkmate. -/
theorem C10_mate_parity :
    ∀ (k : Fen) (d : Nat) (m : Option Mv),
      findEntry generateKrkTablebase k = some (Val.mate d, m) →
      (k.turn = true → d % 2 = 1) ∧ (k.turn = false → d % 2 = 0) ∧
        (d = 0 → k.turn = false) := by
  intro k d m h
  obtain ⟨hmem, hcase⟩ := final_entry_cases k (Val.mate d, m) h
  rcases hcase with ⟨he, hcm⟩ | ⟨he, -⟩
  · rw [Prod.mk.injEq, Val.mate.injEq] at he
    obtain ⟨rfl, rfl⟩ := he
    have hturn := checkmate_turn_black k hmem hcm
    refine ⟨?_, fun _ => rfl, fun _ => hturn⟩
    intro ht
    rw [hturn] at ht
    exact absurd ht Bool.false_ne_true
  · rw [Prod.mk.injEq] at he
    exact absurd he.1 (fun hq => Val.noConfusion hq)

/-- Witness for C10 at the concrete checkmate entry. -/
theorem C10_witness :
    (fenCheckmate.turn = true → 0 % 2 = 1) ∧
      (fenCheckmate.turn = false → 0 % 2 = 0) ∧
      (0 = 0 → fenCheckmate.turn = false) :=
  C10_mate_parity fenCheckmate 0 none final_fenCheckmate
